import Mathlib

/-!
Verification of the chunking core of the RAG_custom_semantic_chunking
notebook (src/RAG_model.ipynb): the window combiner `func`, the sequential
similarity chunker `semantic_chunking`, and the anchor cluster chunker
`semantic_cluster_chunking`.

Modelling choices, each noted at its definition:
* The embedding model (`model.encode`, an external collaborator) and the
  cosine-similarity computation over its float vectors are abstracted as a
  rational-valued similarity matrix `sim : ℕ → ℕ → ℚ`, indexed by window
  positions, exactly as the chunkers consume it (`cosine_similarity` of
  `embeddings[i]` and `embeddings[j]`).  Facts that hold of genuine cosine
  values (self-similarity 1, values bounded by 1) enter theorems as explicit
  hypotheses.
* Chunks are observed through their member window indices, in append order;
  the notebook accumulates the member texts `comb[idx]` and space-joins them,
  which is determined by the index list.
* Python's word count `len(t.split())` is `pyWordCount`; list indexing uses
  `getD` with an unreachable default.
-/

/-- Helper for `pyWordCount`: count the maximal non-whitespace runs of a
character list; the flag records whether the scan is inside a run. -/
def pyWordCountAux : Bool → List Char → ℕ
  | _, [] => 0
  | inTok, c :: cs =>
    if c.isWhitespace then pyWordCountAux false cs
    else if inTok then pyWordCountAux true cs
    else 1 + pyWordCountAux true cs

/-- Python `len(t.split())`: `split()` with no separator splits on runs of
whitespace and drops empty pieces, so the count is the number of maximal
non-whitespace runs of the text. -/
def pyWordCount (t : String) : ℕ :=
  pyWordCountAux false t.data

/-- The text of window `i` of `comb`, `comb[i]` in the notebook. -/
def winText (comb : List String) (i : ℕ) : String :=
  comb.getD i ""

/-- Word count of window `i`, `len(comb[i].split())` in the notebook. -/
def winWC (comb : List String) (i : ℕ) : ℕ :=
  pyWordCount (winText comb i)

/-- The notebook's `func(sentences, buffer_size)` (cell 16): for each index,
concatenate the sentence texts of `range(index - min(index, buffer_size),
index + 1)` and then of `range(index + 1, min(len(sentences), buffer_size + 1
+ index))`, with no separator.  A sentence record's `.sentences` field is its
text; records are accessed positionally.  Python `range(a, b)` is
`List.range' a (b - a)` (empty when `b ≤ a`, as in Python). -/
def func (sentences : List String) (buffer_size : ℕ) : List String :=
  (List.range sentences.length).map fun index =>
    String.join ((List.range' (index - min index buffer_size)
        ((index + 1) - (index - min index buffer_size))).map
      fun o1 => sentences.getD o1 "") ++
    String.join ((List.range' (index + 1)
        (min sentences.length (buffer_size + 1 + index) - (index + 1))).map
      fun o2 => sentences.getD o2 "")

/-- Modelled from the spec (section 4.2): window `i` is the concatenation of
the sentence texts at positions `[max 0 (i - bufferSize), i]` followed by
those at positions `(i, min (len - 1) (i + bufferSize)]`, with no separator.
Used only to compare `func` against the spec's wording. -/
def windowSpec (sentences : List String) (bufferSize : ℕ) (i : ℕ) : String :=
  String.join ((List.range' (max 0 (i - bufferSize))
      ((i + 1) - max 0 (i - bufferSize))).map
    fun p => sentences.getD p "") ++
  String.join ((List.range' (i + 1)
      ((min (sentences.length - 1) (i + bufferSize) + 1) - (i + 1))).map
    fun p => sentences.getD p "")

/-- State of the sequential chunker's loop: the emitted chunks, the current
chunk under construction, and `current_len`, all as in cell 25 of the
notebook (chunks hold member indices rather than the member texts). -/
structure SeqState where
  chunks : List (List ℕ)
  current : List ℕ
  currentLen : ℕ
deriving Repr, DecidableEq

/-- One iteration of the sequential chunker's `for i in range(1, len(comb))`
loop: `sim = cosine_similarity([embeddings[i]], [embeddings[i-1]])[0][0]`,
`next_len = len(comb[i].split())`; append window `i` to the current chunk
when `sim > threshold and current_len + next_len <= chunk_limit`, otherwise
emit the current chunk and start a new chunk containing only window `i`. -/
def seqStep (comb : List String) (sim : ℕ → ℕ → ℚ) (threshold : ℚ)
    (chunk_limit : ℕ) (s : SeqState) (i : ℕ) : SeqState :=
  if threshold < sim i (i - 1) ∧ s.currentLen + winWC comb i ≤ chunk_limit then
    ⟨s.chunks, s.current ++ [i], s.currentLen + winWC comb i⟩
  else
    ⟨s.chunks ++ [s.current], [i], winWC comb i⟩

/-- The sequential chunker's state after the loop has processed windows
`1, …, k` (the loop runs over `range(1, len(comb))`; the initial state seeds
the current chunk with window 0 and its word count). -/
def seqStateAt (comb : List String) (sim : ℕ → ℕ → ℚ) (threshold : ℚ)
    (chunk_limit : ℕ) (k : ℕ) : SeqState :=
  (List.range' 1 k).foldl (seqStep comb sim threshold chunk_limit)
    ⟨[], [0], winWC comb 0⟩

/-- The notebook's `semantic_chunking(comb, threshold, chunk_limit)`
(cell 25), observed through member indices.  On empty input the notebook
raises `IndexError` at `current_chunk = [comb[0]]`, modelled as `none`.
Otherwise the loop processes windows `1, …, len(comb) - 1` and finally the
in-progress chunk is appended. -/
def semantic_chunking (comb : List String) (sim : ℕ → ℕ → ℚ) (threshold : ℚ)
    (chunk_limit : ℕ) : Option (List (List ℕ)) :=
  if comb = [] then none
  else
    let final := seqStateAt comb sim threshold chunk_limit (comb.length - 1)
    some (final.chunks ++ [final.current])

/-- Stable descending insertion: place `x` before the first element whose
similarity does not exceed `x`'s.  Together with `sortDesc` this implements
the unique stable descending-by-similarity sort, which is what Python's
stable `sorted(enumerate(similarities), key=lambda x: -x[1])` computes. -/
def insertDesc (x : ℕ × ℚ) : List (ℕ × ℚ) → List (ℕ × ℚ)
  | [] => [x]
  | y :: ys => if y.2 ≤ x.2 then x :: y :: ys else y :: insertDesc x ys

/-- Stable insertion sort by descending similarity (see `insertDesc`). -/
def sortDesc : List (ℕ × ℚ) → List (ℕ × ℚ)
  | [] => []
  | x :: xs => insertDesc x (sortDesc xs)

/-- The strict ranking order the anchor chunker's `ranked` list realises:
strictly greater similarity first, ties by ascending original index. -/
def rankRel (p q : ℕ × ℚ) : Prop :=
  q.2 < p.2 ∨ (p.2 = q.2 ∧ p.1 < q.1)

/-- The notebook's `ranked = sorted(enumerate(similarities), key=lambda x:
-x[1])` (cell 42) for one anchor, where `simTo j` is the cosine similarity of
the anchor's embedding to window `j`'s. -/
def rankedFor (comb : List String) (simTo : ℕ → ℚ) : List (ℕ × ℚ) :=
  sortDesc ((List.range comb.length).map fun j => (j, simTo j))

/-- The notebook's ranked scan (inner `for idx, sim in ranked` loop of
cell 42): a candidate already in `used` is skipped (`continue`, so the break
check is not reached); otherwise it is accepted when `word_count + wc <=
chunk_limit` (appended, marked used, word count accumulated); in either case
the loop then breaks when `word_count >= chunk_limit`, evaluated on the
possibly-updated count.  Returns the accumulated chunk and the used set. -/
def anchorScan (comb : List String) (chunk_limit : ℕ) :
    List (ℕ × ℚ) → Finset ℕ → List ℕ → ℕ → List ℕ × Finset ℕ
  | [], used, chunk, _ => (chunk, used)
  | (idx, _) :: rest, used, chunk, word_count =>
    if idx ∈ used then
      anchorScan comb chunk_limit rest used chunk word_count
    else if word_count + winWC comb idx ≤ chunk_limit then
      if chunk_limit ≤ word_count + winWC comb idx then
        (chunk ++ [idx], insert idx used)
      else
        anchorScan comb chunk_limit rest (insert idx used) (chunk ++ [idx])
          (word_count + winWC comb idx)
    else if chunk_limit ≤ word_count then
      (chunk, used)
    else
      anchorScan comb chunk_limit rest used chunk word_count

/-- One anchor's iteration of the outer loop of cell 42: rank every window by
similarity to the anchor, scan the ranking starting from an empty chunk and
zero word count, and emit the chunk if it is non-empty (`if chunk:`). -/
def clusterStep (comb : List String) (sim : ℕ → ℕ → ℚ) (chunk_limit : ℕ)
    (acc : List (List ℕ) × Finset ℕ) (a : ℕ) : List (List ℕ) × Finset ℕ :=
  let scanned := anchorScan comb chunk_limit (rankedFor comb (sim a)) acc.2 [] 0
  (if scanned.1 = [] then acc.1 else acc.1 ++ [scanned.1], scanned.2)

/-- Python `range(0, n, stride)` for `stride ≥ 1`: the multiples of `stride`
below `n`.  (For `stride = 0` Python's `range` raises `ValueError`; the
chunker returns `none` there, see `semantic_cluster_chunking`.) -/
def anchorIndices (n stride : ℕ) : List ℕ :=
  (List.range ((n + stride - 1) / stride)).map fun k => k * stride

/-- The notebook's `semantic_cluster_chunking(comb, anchor_stride,
chunk_limit)` (cell 42), observed through member indices: fold `clusterStep`
over the anchor positions `0, stride, 2·stride, …  < len(comb)` starting from
no chunks and an empty used set.  `anchor_stride = 0` makes Python's `range`
raise `ValueError`, modelled as `none`. -/
def semantic_cluster_chunking (comb : List String) (sim : ℕ → ℕ → ℚ)
    (anchor_stride chunk_limit : ℕ) : Option (List (List ℕ)) :=
  if anchor_stride = 0 then none
  else
    some ((anchorIndices comb.length anchor_stride).foldl
      (clusterStep comb sim chunk_limit) ([], ∅)).1

/-- Chunks listed with pairwise disjoint member-index sets. -/
def pairwiseDisjoint (out : List (List ℕ)) : Prop :=
  out.Pairwise fun c d => ∀ x ∈ c, x ∉ d

/-- Every chunk consists of exactly one window. -/
def allSingleton (out : List (List ℕ)) : Prop :=
  ∀ c ∈ out, c.length = 1

instance (out : List (List ℕ)) : Decidable (pairwiseDisjoint out) := by
  unfold pairwiseDisjoint; infer_instance

instance (out : List (List ℕ)) : Decidable (allSingleton out) := by
  unfold allSingleton; infer_instance

/-- A constant-zero similarity matrix for concrete instances of the
sequential chunker, whose loop consults only off-diagonal entries — there it
agrees with the cosine matrix of pairwise orthogonal unit embeddings. -/
def simZero : ℕ → ℕ → ℚ := fun _ _ => 0

/-- The similarity matrix of identical unit embeddings: every value is 1. -/
def simOne : ℕ → ℕ → ℚ := fun _ _ => 1

/-- The similarity matrix of pairwise orthogonal unit embeddings. -/
def simId : ℕ → ℕ → ℚ := fun a b => if a = b then 1 else 0

/-- The cosine matrix of embeddings `e0 = (1,0)`, `e1 = e2 = (0,1)`: windows
1 and 2 have identical embeddings, so their mutual similarity is 1. -/
def simTie : ℕ → ℕ → ℚ := fun a b =>
  if a = b ∨ (a = 1 ∧ b = 2) ∨ (a = 2 ∧ b = 1) then 1 else 0

/-! ### Lemmas about the sequential chunker's loop -/

theorem seqStateAt_zero (comb : List String) (sim : ℕ → ℕ → ℚ) (threshold : ℚ)
    (chunk_limit : ℕ) :
    seqStateAt comb sim threshold chunk_limit 0 = ⟨[], [0], winWC comb 0⟩ := rfl

theorem seqStateAt_succ (comb : List String) (sim : ℕ → ℕ → ℚ) (threshold : ℚ)
    (chunk_limit : ℕ) (k : ℕ) :
    seqStateAt comb sim threshold chunk_limit (k + 1) =
      seqStep comb sim threshold chunk_limit
        (seqStateAt comb sim threshold chunk_limit k) (k + 1) := by
  have h : (1 : ℕ) + 1 * k = k + 1 := by omega
  unfold seqStateAt
  rw [List.range'_concat, List.foldl_concat, h]

theorem seqStateAt_inv (comb : List String) (sim : ℕ → ℕ → ℚ) (threshold : ℚ)
    (chunk_limit : ℕ) (k : ℕ) :
    (seqStateAt comb sim threshold chunk_limit k).chunks.flatten ++
        (seqStateAt comb sim threshold chunk_limit k).current = List.range (k + 1) ∧
      (seqStateAt comb sim threshold chunk_limit k).current ≠ [] ∧
      [] ∉ (seqStateAt comb sim threshold chunk_limit k).chunks := by
  induction k with
  | zero =>
    refine ⟨?_, by simp [seqStateAt_zero], by simp [seqStateAt_zero]⟩
    simp [seqStateAt_zero, List.range_succ]
  | succ k ih =>
    obtain ⟨h1, h2, h3⟩ := ih
    rw [seqStateAt_succ]
    unfold seqStep
    split
    · refine ⟨?_, by simp, h3⟩
      simpa [← List.append_assoc, h1] using (List.range_succ (n := k + 1)).symm
    · refine ⟨?_, by simp, ?_⟩
      · simpa [List.append_assoc, h1] using (List.range_succ (n := k + 1)).symm
      · intro hmem
        rcases List.mem_append.1 hmem with h | h
        · exact h3 h
        · exact h2 (List.mem_singleton.1 h).symm

theorem semantic_chunking_eq (comb : List String) (sim : ℕ → ℕ → ℚ)
    (threshold : ℚ) (chunk_limit : ℕ) (h : comb ≠ []) :
    semantic_chunking comb sim threshold chunk_limit =
      some ((seqStateAt comb sim threshold chunk_limit (comb.length - 1)).chunks ++
        [(seqStateAt comb sim threshold chunk_limit (comb.length - 1)).current]) := by
  unfold semantic_chunking
  simp [h]

theorem foldl_seqStep_congr (comb : List String) (sim sim' : ℕ → ℕ → ℚ)
    (threshold : ℚ) (chunk_limit : ℕ) :
    ∀ (l : List ℕ), (∀ j ∈ l, sim j (j - 1) = sim' j (j - 1)) → ∀ s,
      l.foldl (seqStep comb sim threshold chunk_limit) s =
        l.foldl (seqStep comb sim' threshold chunk_limit) s := by
  intro l
  induction l with
  | nil => intro _ s; rfl
  | cons j l ih =>
    intro hl s
    have hj : sim j (j - 1) = sim' j (j - 1) := hl j (List.mem_cons_self j l)
    have hstep : seqStep comb sim threshold chunk_limit s j =
        seqStep comb sim' threshold chunk_limit s j := by
      unfold seqStep; rw [hj]
    simp only [List.foldl_cons, hstep]
    exact ih (fun m hm => hl m (List.mem_cons_of_mem j hm)) _

/-- C1: for every non-empty window sequence and any threshold and word limit,
the sequential chunker succeeds and the concatenation of member indices
across its chunks, in emission order, is exactly `[0, 1, …, n-1]` (every
window in exactly one chunk, document order); no emitted chunk is empty and
the first chunk contains window 0. -/
theorem semantic_chunking_partition (comb : List String) (sim : ℕ → ℕ → ℚ)
    (threshold : ℚ) (chunk_limit : ℕ) (h : comb ≠ []) :
    ∃ out, semantic_chunking comb sim threshold chunk_limit = some out ∧
      out.flatten = List.range comb.length ∧ [] ∉ out ∧
      ∃ c rest, out = c :: rest ∧ 0 ∈ c := by
  obtain ⟨h1, h2, h3⟩ := seqStateAt_inv comb sim threshold chunk_limit (comb.length - 1)
  have hlen : 0 < comb.length := List.length_pos.2 h
  have hn : comb.length - 1 + 1 = comb.length := by omega
  rw [hn] at h1
  set s := seqStateAt comb sim threshold chunk_limit (comb.length - 1) with hs
  refine ⟨s.chunks ++ [s.current], semantic_chunking_eq comb sim threshold chunk_limit h,
    ?_, ?_, ?_⟩
  · simpa using h1
  · intro hmem
    rcases List.mem_append.1 hmem with hm | hm
    · exact h3 hm
    · exact h2 (List.mem_singleton.1 hm).symm
  · obtain ⟨m, hm⟩ : ∃ m, comb.length = m + 1 := ⟨comb.length - 1, by omega⟩
    rcases hch : s.chunks with _ | ⟨c, cs⟩
    · refine ⟨s.current, [], by simp, ?_⟩
      have : s.current = List.range comb.length := by simpa [hch] using h1
      rw [this, hm, List.range_succ_eq_map]
      exact List.mem_cons_self 0 _
    · refine ⟨c, cs ++ [s.current], by simp, ?_⟩
      have hc : c ≠ [] := fun hc0 => h3 (by simp [hch, hc0])
      rcases hcx : c with _ | ⟨x, xs⟩
      · exact absurd hcx hc
      · have : (x :: (xs ++ (cs.flatten ++ s.current))) = List.range comb.length := by
          have := h1
          rw [hch, hcx] at this
          simpa [List.append_assoc] using this
        rw [hm, List.range_succ_eq_map] at this
        have hx : x = 0 := by
          have hh := congrArg List.head? this
          simpa using hh
        simp [hcx, hx]

/-- C1 witness: the partition property at a concrete input. -/
theorem semantic_chunking_partition_witness :
    (["a", "b"] : List String) ≠ [] ∧
      ∃ out, semantic_chunking ["a", "b"] simZero 0 512 = some out ∧
        out.flatten = List.range (List.length ["a", "b"]) ∧ [] ∉ out ∧
        ∃ c rest, out = c :: rest ∧ 0 ∈ c :=
  ⟨by decide, semantic_chunking_partition ["a", "b"] simZero 0 512 (by decide)⟩

/-- C3: the sequential chunker's step at window `i + 1` compares the
similarity of embedding `i + 1` with embedding `i` (its immediate
predecessor), appends window `i + 1` to the current chunk exactly when that
similarity strictly exceeds the threshold and the accumulated word count
plus the window's word count stays within the limit, and otherwise emits the
current chunk and starts a new chunk containing only window `i + 1`;
moreover the whole output consults only consecutive-pair similarities (never
an aggregate of the current chunk): two similarity matrices agreeing on
consecutive pairs produce identical output. -/
theorem semantic_chunking_merge_rule (comb : List String) (sim sim' : ℕ → ℕ → ℚ)
    (threshold : ℚ) (chunk_limit : ℕ) (i : ℕ) :
    (seqStateAt comb sim threshold chunk_limit (i + 1) =
      if threshold < sim (i + 1) i ∧
          (seqStateAt comb sim threshold chunk_limit i).currentLen +
            winWC comb (i + 1) ≤ chunk_limit then
        ⟨(seqStateAt comb sim threshold chunk_limit i).chunks,
          (seqStateAt comb sim threshold chunk_limit i).current ++ [i + 1],
          (seqStateAt comb sim threshold chunk_limit i).currentLen + winWC comb (i + 1)⟩
      else
        ⟨(seqStateAt comb sim threshold chunk_limit i).chunks ++
            [(seqStateAt comb sim threshold chunk_limit i).current],
          [i + 1], winWC comb (i + 1)⟩) ∧
    ((∀ j, 1 ≤ j → j < comb.length → sim j (j - 1) = sim' j (j - 1)) →
      semantic_chunking comb sim threshold chunk_limit =
        semantic_chunking comb sim' threshold chunk_limit) := by
  constructor
  · rw [seqStateAt_succ]
    unfold seqStep
    simp
  · intro hagree
    rcases hc : comb with _ | ⟨w, ws⟩
    · rfl
    · rw [← hc]
      have hne : comb ≠ [] := by rw [hc]; exact List.cons_ne_nil _ _
      have hfold : seqStateAt comb sim threshold chunk_limit (comb.length - 1) =
          seqStateAt comb sim' threshold chunk_limit (comb.length - 1) := by
        unfold seqStateAt
        refine foldl_seqStep_congr comb sim sim' threshold chunk_limit _ ?_ _
        intro j hj
        rw [List.mem_range'_1] at hj
        have hlen : 0 < comb.length := List.length_pos.2 hne
        exact hagree j hj.1 (by omega)
      rw [semantic_chunking_eq comb sim threshold chunk_limit hne,
        semantic_chunking_eq comb sim' threshold chunk_limit hne, hfold]

/-- C6 counterexample: on the empty window sequence the sequential chunker
does not return an empty chunk sequence — it fails (the notebook raises
`IndexError` at `current_chunk = [comb[0]]`, modelled as `none`). -/
theorem empty_input_seq_fails :
    semantic_chunking [] simZero 0 512 = none := rfl

/-- C6 amended: on the empty window sequence the anchor chunker returns the
empty chunk sequence (for any positive stride), but the sequential chunker
fails with an index error instead of returning an empty sequence. -/
theorem empty_input_amended (sim : ℕ → ℕ → ℚ) (threshold : ℚ)
    (stride chunk_limit : ℕ) (hs : stride ≠ 0) :
    semantic_chunking [] sim threshold chunk_limit = none ∧
      semantic_cluster_chunking [] sim stride chunk_limit = some [] := by
  constructor
  · rfl
  · have h0 : (stride - 1) / stride = 0 := Nat.div_eq_of_lt (by omega)
    simp [semantic_cluster_chunking, hs, anchorIndices, h0]

/-- C6 witness: the amended behaviour at stride 5. -/
theorem empty_input_amended_witness :
    (5 : ℕ) ≠ 0 ∧
      (semantic_chunking [] simZero 0 512 = none ∧
        semantic_cluster_chunking [] simZero 5 512 = some []) :=
  ⟨by decide, empty_input_amended simZero 0 5 512 (by decide)⟩

/-- C7 counterexample: a threshold outside `[0, 1]` does not cause a
fail-fast `InvalidParameter` error — the sequential chunker runs to
completion and returns chunks (threshold 2 merely prevents all merges). -/
theorem invalid_threshold_no_error :
    (1 : ℚ) < 2 ∧ semantic_chunking ["a", "b"] simZero 2 512 = some [[0], [1]] := by
  refine ⟨by norm_num, ?_⟩
  decide

/-- C7 amended: the notebook performs no parameter validation at all.  Even
with a threshold outside `[0, 1]` the sequential chunker succeeds exactly
when the input is non-empty, and even with word limit 0 (a non-positive
limit) the anchor chunker returns a result for any positive stride; no
`InvalidParameter` failure exists. -/
theorem no_parameter_validation (comb : List String) (sim : ℕ → ℕ → ℚ)
    (threshold : ℚ) (chunk_limit stride : ℕ)
    (ht : 1 < threshold ∨ threshold < 0) :
    ((semantic_chunking comb sim threshold chunk_limit).isSome ↔ comb ≠ []) ∧
      (stride ≠ 0 → (semantic_cluster_chunking comb sim stride 0).isSome) := by
  constructor
  · unfold semantic_chunking
    split
    · simp_all
    · simp_all
  · intro hs
    unfold semantic_cluster_chunking
    simp [hs]

/-- C7 witness: no validation failure at threshold 2 and word limit 0. -/
theorem no_parameter_validation_witness :
    ((1 : ℚ) < 2 ∨ (2 : ℚ) < 0) ∧
      (((semantic_chunking ["a"] simZero 2 512).isSome ↔ (["a"] : List String) ≠ []) ∧
        ((5 : ℕ) ≠ 0 → (semantic_cluster_chunking ["a"] simZero 5 0).isSome)) :=
  ⟨Or.inl (by norm_num),
    no_parameter_validation ["a"] simZero 2 512 5 (Or.inl (by norm_num))⟩

theorem seqStateAt_no_merge (comb : List String) (sim : ℕ → ℕ → ℚ)
    (threshold : ℚ) (chunk_limit : ℕ)
    (hc : ∀ i, ¬ threshold < sim i (i - 1)) (k : ℕ) :
    (∀ c ∈ (seqStateAt comb sim threshold chunk_limit k).chunks, c.length = 1) ∧
      (seqStateAt comb sim threshold chunk_limit k).current.length = 1 := by
  induction k with
  | zero => exact ⟨by simp [seqStateAt_zero], by simp [seqStateAt_zero]⟩
  | succ k ih =>
    obtain ⟨h1, h2⟩ := ih
    rw [seqStateAt_succ]
    unfold seqStep
    rw [if_neg (by intro hand; exact hc (k + 1) hand.1)]
    refine ⟨?_, by simp⟩
    intro c hcmem
    rcases List.mem_append.1 hcmem with hm | hm
    · exact h1 c hm
    · rw [List.mem_singleton.1 hm]; exact h2

/-- C8: with threshold exactly 1.0 and similarity values bounded by 1 (as
exact cosine similarities are), every chunk emitted by the sequential
chunker contains a single window.  This subsumes the claim's
identical-embeddings exception: the merge test is the strict comparison
`sim > 1`, which no exact cosine value satisfies, so single-window chunks
are forced even when adjacent embeddings are identical (similarity exactly
1), and a merge would in any case require similarity 1, i.e. parallel
embeddings. -/
theorem threshold_one_single_window (comb : List String) (sim : ℕ → ℕ → ℚ)
    (chunk_limit : ℕ) (out : List (List ℕ)) (hsim : ∀ i j, sim i j ≤ 1)
    (hout : semantic_chunking comb sim 1 chunk_limit = some out) :
    allSingleton out := by
  have hne : comb ≠ [] := by
    intro h0
    rw [h0] at hout
    exact Option.noConfusion hout
  rw [semantic_chunking_eq comb sim 1 chunk_limit hne] at hout
  obtain ⟨h1, h2⟩ := seqStateAt_no_merge comb sim 1 chunk_limit
    (fun i => not_lt.2 (hsim i (i - 1))) (comb.length - 1)
  intro c hcmem
  rw [← Option.some_inj.1 hout] at hcmem
  rcases List.mem_append.1 hcmem with hm | hm
  · exact h1 c hm
  · rw [List.mem_singleton.1 hm]; exact h2

/-- C8 witness: two windows with identical embeddings (all similarities 1)
still come out as two single-window chunks at threshold 1. -/
theorem threshold_one_single_window_witness :
    simOne 0 1 ≤ 1 ∧ allSingleton [[0], [1]] :=
  ⟨le_refl 1,
    threshold_one_single_window ["a", "b"] simOne 512 [[0], [1]]
      (fun _ _ => le_refl 1) (by decide)⟩

/-! ### Lemmas about the ranking sort -/

theorem rankRel_of (x y : ℕ × ℚ) (h2 : y.2 ≤ x.2) (h1 : x.1 < y.1) :
    rankRel x y := by
  rcases lt_or_eq_of_le h2 with h | h
  · exact Or.inl h
  · exact Or.inr ⟨h.symm, h1⟩

theorem rankRel_le (z y : ℕ × ℚ) (h : rankRel z y) : y.2 ≤ z.2 := by
  rcases h with h | ⟨h, _⟩
  · exact le_of_lt h
  · exact le_of_eq h.symm

theorem mem_insertDesc (x y : ℕ × ℚ) (l : List (ℕ × ℚ)) :
    y ∈ insertDesc x l ↔ y = x ∨ y ∈ l := by
  induction l with
  | nil => simp [insertDesc]
  | cons z zs ih =>
    unfold insertDesc
    split
    · simp [List.mem_cons]
    · simp only [List.mem_cons, ih]
      tauto

theorem insertDesc_perm (x : ℕ × ℚ) (l : List (ℕ × ℚ)) :
    (insertDesc x l).Perm (x :: l) := by
  induction l with
  | nil => exact List.Perm.refl _
  | cons z zs ih =>
    unfold insertDesc
    split
    · exact List.Perm.refl _
    · exact (ih.cons z).trans (List.Perm.swap x z zs)

theorem sortDesc_perm (l : List (ℕ × ℚ)) : (sortDesc l).Perm l := by
  induction l with
  | nil => exact List.Perm.refl _
  | cons x xs ih =>
    show (insertDesc x (sortDesc xs)).Perm (x :: xs)
    exact (insertDesc_perm x (sortDesc xs)).trans (ih.cons x)

theorem insertDesc_pairwise (x : ℕ × ℚ) (l : List (ℕ × ℚ))
    (hl : l.Pairwise rankRel) (hx : ∀ y ∈ l, x.1 < y.1) :
    (insertDesc x l).Pairwise rankRel := by
  induction l with
  | nil => simp [insertDesc]
  | cons z zs ih =>
    rw [List.pairwise_cons] at hl
    unfold insertDesc
    split
    · rename_i hz
      refine List.Pairwise.cons ?_ (List.Pairwise.cons hl.1 hl.2)
      intro y hy
      rcases List.mem_cons.1 hy with rfl | hy2
      · exact rankRel_of x y hz (hx y hy)
      · refine rankRel_of x y ?_ (hx y hy)
        exact le_trans (rankRel_le z y (hl.1 y hy2)) hz
    · rename_i hz
      refine List.Pairwise.cons ?_
        (ih hl.2 (fun y hy => hx y (List.mem_cons_of_mem z hy)))
      intro y hy
      rcases (mem_insertDesc x y zs).1 hy with rfl | hy2
      · exact Or.inl (lt_of_not_le hz)
      · exact hl.1 y hy2

theorem sortDesc_pairwise (l : List (ℕ × ℚ))
    (hl : l.Pairwise fun p q => p.1 < q.1) :
    (sortDesc l).Pairwise rankRel := by
  induction l with
  | nil => simp [sortDesc]
  | cons x xs ih =>
    rw [List.pairwise_cons] at hl
    show (insertDesc x (sortDesc xs)).Pairwise rankRel
    refine insertDesc_pairwise x (sortDesc xs) (ih hl.2) ?_
    intro y hy
    exact hl.1 y ((sortDesc_perm xs).mem_iff.1 hy)

theorem rankedFor_fst_perm (comb : List String) (simTo : ℕ → ℚ) :
    ((rankedFor comb simTo).map Prod.fst).Perm (List.range comb.length) := by
  unfold rankedFor
  have h := (sortDesc_perm ((List.range comb.length).map
    fun j => (j, simTo j))).map Prod.fst
  rw [List.map_map] at h
  have h2 : (Prod.fst ∘ fun j : ℕ => (j, simTo j)) = fun j : ℕ => j := rfl
  rw [h2] at h
  simpa using h

theorem rankedFor_pairwise (comb : List String) (simTo : ℕ → ℚ) :
    (rankedFor comb simTo).Pairwise rankRel := by
  apply sortDesc_pairwise
  rw [List.pairwise_map]
  simpa using List.pairwise_lt_range comb.length

theorem rankedFor_snd (comb : List String) (simTo : ℕ → ℚ) :
    ∀ p ∈ rankedFor comb simTo, p.2 = simTo p.1 ∧ p.1 < comb.length := by
  intro p hp
  have hp2 := (sortDesc_perm _).mem_iff.1 hp
  rw [List.mem_map] at hp2
  obtain ⟨j, hj, rfl⟩ := hp2
  exact ⟨rfl, List.mem_range.1 hj⟩

/-- C4: for each anchor, the ranked candidate list visits exactly the window
indices `0, …, n-1` (a permutation of the full range), ordered by strictly
descending similarity with ties broken by ascending original index (the
stable sort); and the scan treats each candidate exactly as the claim says:
a used candidate is skipped; an unused candidate is accepted iff adding its
word count keeps the running total within the word limit; the scan stops
exactly when the running total reaches or exceeds the limit (checked after
the candidate is processed), so a rejected candidate with the total still
below the limit does not stop the scan. -/
theorem anchor_scan_procedure (comb : List String) (sim : ℕ → ℕ → ℚ)
    (chunk_limit : ℕ) (a : ℕ) :
    ((rankedFor comb (sim a)).map Prod.fst).Perm (List.range comb.length) ∧
    (rankedFor comb (sim a)).Pairwise rankRel ∧
    (∀ (idx : ℕ) (s : ℚ) (rest : List (ℕ × ℚ)) (used : Finset ℕ)
        (chunk : List ℕ) (word_count : ℕ),
      (idx ∈ used →
        anchorScan comb chunk_limit ((idx, s) :: rest) used chunk word_count =
          anchorScan comb chunk_limit rest used chunk word_count) ∧
      (idx ∉ used → word_count + winWC comb idx ≤ chunk_limit →
        chunk_limit ≤ word_count + winWC comb idx →
          anchorScan comb chunk_limit ((idx, s) :: rest) used chunk word_count =
            (chunk ++ [idx], insert idx used)) ∧
      (idx ∉ used → word_count + winWC comb idx ≤ chunk_limit →
        word_count + winWC comb idx < chunk_limit →
          anchorScan comb chunk_limit ((idx, s) :: rest) used chunk word_count =
            anchorScan comb chunk_limit rest (insert idx used) (chunk ++ [idx])
              (word_count + winWC comb idx)) ∧
      (idx ∉ used → chunk_limit < word_count + winWC comb idx →
        word_count < chunk_limit →
          anchorScan comb chunk_limit ((idx, s) :: rest) used chunk word_count =
            anchorScan comb chunk_limit rest used chunk word_count) ∧
      (idx ∉ used → chunk_limit < word_count + winWC comb idx →
        chunk_limit ≤ word_count →
          anchorScan comb chunk_limit ((idx, s) :: rest) used chunk word_count =
            (chunk, used))) := by
  refine ⟨rankedFor_fst_perm comb (sim a), rankedFor_pairwise comb (sim a), ?_⟩
  intro idx s rest used chunk word_count
  refine ⟨?_, ?_, ?_, ?_, ?_⟩
  · intro h1
    simp [anchorScan, h1]
  · intro h1 h2 h3
    simp [anchorScan, h1, h2, h3]
  · intro h1 h2 h3
    simp [anchorScan, h1, h2, not_le.2 h3]
  · intro h1 h2 h3
    simp [anchorScan, h1, not_le.2 h2, not_le.2 h3]
  · intro h1 h2 h3
    simp [anchorScan, h1, not_le.2 h2, h3]

/-! ### Invariants of the anchor scan and the anchor chunker -/

theorem anchorScan_chunk_prefix (comb : List String) (chunk_limit : ℕ) :
    ∀ (l : List (ℕ × ℚ)) (used : Finset ℕ) (chunk : List ℕ) (wc : ℕ),
      ∃ t, (anchorScan comb chunk_limit l used chunk wc).1 = chunk ++ t := by
  intro l
  induction l with
  | nil => intro used chunk wc; exact ⟨[], by simp [anchorScan]⟩
  | cons p rest ih =>
    intro used chunk wc
    obtain ⟨idx, s⟩ := p
    by_cases h1 : idx ∈ used
    · simpa [anchorScan, h1] using ih used chunk wc
    · by_cases h2 : wc + winWC comb idx ≤ chunk_limit
      · by_cases h3 : chunk_limit ≤ wc + winWC comb idx
        · exact ⟨[idx], by simp [anchorScan, h1, h2, h3]⟩
        · obtain ⟨t, ht⟩ := ih (insert idx used) (chunk ++ [idx])
            (wc + winWC comb idx)
          refine ⟨idx :: t, ?_⟩
          have hstep : anchorScan comb chunk_limit ((idx, s) :: rest) used chunk wc
              = anchorScan comb chunk_limit rest (insert idx used) (chunk ++ [idx])
                (wc + winWC comb idx) := by
            simp [anchorScan, h1, h2, h3]
          rw [hstep, ht]
          simp
      · by_cases h4 : chunk_limit ≤ wc
        · exact ⟨[], by simp [anchorScan, h1, h2, h4]⟩
        · simpa [anchorScan, h1, h2, h4] using ih used chunk wc

theorem anchorScan_inv (comb : List String) (chunk_limit : ℕ) :
    ∀ (l : List (ℕ × ℚ)) (used : Finset ℕ) (chunk : List ℕ) (wc : ℕ),
      (∀ x ∈ chunk, x ∈ used) → (chunk.map (winWC comb)).sum = wc →
      wc ≤ chunk_limit →
      (∀ x ∈ (anchorScan comb chunk_limit l used chunk wc).1,
          x ∈ (anchorScan comb chunk_limit l used chunk wc).2) ∧
      (∀ x ∈ (anchorScan comb chunk_limit l used chunk wc).1,
          x ∈ chunk ∨ x ∉ used) ∧
      (∀ x ∈ used, x ∈ (anchorScan comb chunk_limit l used chunk wc).2) ∧
      ((anchorScan comb chunk_limit l used chunk wc).1.map (winWC comb)).sum ≤
        chunk_limit := by
  intro l
  induction l with
  | nil =>
    intro used chunk wc hcu hsum hle
    exact ⟨fun x hx => hcu x hx, fun x hx => Or.inl hx, fun x hx => hx,
      le_trans (le_of_eq hsum) hle⟩
  | cons p rest ih =>
    intro used chunk wc hcu hsum hle
    obtain ⟨idx, s⟩ := p
    by_cases h1 : idx ∈ used
    · have := ih used chunk wc hcu hsum hle
      simpa [anchorScan, h1] using this
    · by_cases h2 : wc + winWC comb idx ≤ chunk_limit
      · by_cases h3 : chunk_limit ≤ wc + winWC comb idx
        · simp only [anchorScan, if_neg h1, if_pos h2, if_pos h3]
          refine ⟨?_, ?_, ?_, ?_⟩
          · intro x hx
            rcases List.mem_append.1 hx with hx | hx
            · exact Finset.mem_insert_of_mem (hcu x hx)
            · rw [List.mem_singleton.1 hx]; exact Finset.mem_insert_self _ _
          · intro x hx
            rcases List.mem_append.1 hx with hx | hx
            · exact Or.inl hx
            · rw [List.mem_singleton.1 hx]; exact Or.inr h1
          · intro x hx; exact Finset.mem_insert_of_mem hx
          · simpa [hsum] using h2
        · have hIH := ih (insert idx used) (chunk ++ [idx]) (wc + winWC comb idx)
            (by
              intro x hx
              rcases List.mem_append.1 hx with hx | hx
              · exact Finset.mem_insert_of_mem (hcu x hx)
              · rw [List.mem_singleton.1 hx]; exact Finset.mem_insert_self _ _)
            (by simp [hsum]) h2
          simp only [anchorScan, if_neg h1, if_pos h2, if_neg h3]
          refine ⟨hIH.1, ?_, ?_, hIH.2.2.2⟩
          · intro x hx
            rcases hIH.2.1 x hx with hx2 | hx2
            · rcases List.mem_append.1 hx2 with hx3 | hx3
              · exact Or.inl hx3
              · rw [List.mem_singleton.1 hx3]; exact Or.inr h1
            · exact Or.inr fun hx3 => hx2 (Finset.mem_insert_of_mem hx3)
          · intro x hx; exact hIH.2.2.1 x (Finset.mem_insert_of_mem hx)
      · by_cases h4 : chunk_limit ≤ wc
        · simp only [anchorScan, if_neg h1, if_neg h2, if_pos h4]
          refine ⟨fun x hx => hcu x hx, fun x hx => Or.inl hx, fun x hx => hx, ?_⟩
          rw [hsum]; exact hle
        · have := ih used chunk wc hcu hsum hle
          simpa [anchorScan, h1, h2, h4] using this

theorem cluster_foldl_inv (comb : List String) (sim : ℕ → ℕ → ℚ)
    (chunk_limit : ℕ) :
    ∀ (anchors : List ℕ) (acc : List (List ℕ) × Finset ℕ),
      (∀ c ∈ acc.1, ∀ x ∈ c, x ∈ acc.2) → pairwiseDisjoint acc.1 →
      (∀ c ∈ acc.1, (c.map (winWC comb)).sum ≤ chunk_limit) →
      (∀ c ∈ (anchors.foldl (clusterStep comb sim chunk_limit) acc).1, ∀ x ∈ c,
          x ∈ (anchors.foldl (clusterStep comb sim chunk_limit) acc).2) ∧
      pairwiseDisjoint (anchors.foldl (clusterStep comb sim chunk_limit) acc).1 ∧
      (∀ c ∈ (anchors.foldl (clusterStep comb sim chunk_limit) acc).1,
          (c.map (winWC comb)).sum ≤ chunk_limit) := by
  intro anchors
  induction anchors with
  | nil => intro acc h1 h2 h3; exact ⟨h1, h2, h3⟩
  | cons a anchors ih =>
    intro acc h1 h2 h3
    rw [List.foldl_cons]
    obtain ⟨s1, s2, s3, s4⟩ := anchorScan_inv comb chunk_limit
      (rankedFor comb (sim a)) acc.2 [] 0 (by simp) (by simp) (Nat.zero_le _)
    set scanned := anchorScan comb chunk_limit (rankedFor comb (sim a)) acc.2 [] 0
      with hsc
    have hstep : clusterStep comb sim chunk_limit acc a =
        (if scanned.1 = [] then acc.1 else acc.1 ++ [scanned.1], scanned.2) := rfl
    rw [hstep]
    have hnew : ∀ x ∈ scanned.1, x ∉ acc.2 := by
      intro x hx
      rcases s2 x hx with hx2 | hx2
      · exact absurd hx2 (List.not_mem_nil x)
      · exact hx2
    refine ih _ ?_ ?_ ?_
    · intro c hc x hx
      by_cases hemp : scanned.1 = []
      · rw [if_pos hemp] at hc
        exact s3 x (h1 c hc x hx)
      · rw [if_neg hemp] at hc
        rcases List.mem_append.1 hc with hc2 | hc2
        · exact s3 x (h1 c hc2 x hx)
        · rw [List.mem_singleton.1 hc2] at hx
          exact s1 x hx
    · by_cases hemp : scanned.1 = []
      · rw [if_pos hemp]; exact h2
      · rw [if_neg hemp]
        unfold pairwiseDisjoint at h2 ⊢
        rw [List.pairwise_append]
        refine ⟨h2, List.pairwise_singleton _ _, ?_⟩
        intro c hc d hd x hx
        rw [List.mem_singleton.1 hd]
        intro hx2
        exact hnew x hx2 (h1 c hc x hx)
    · intro c hc
      by_cases hemp : scanned.1 = []
      · rw [if_pos hemp] at hc
        exact h3 c hc
      · rw [if_neg hemp] at hc
        rcases List.mem_append.1 hc with hc2 | hc2
        · exact h3 c hc2
        · rw [List.mem_singleton.1 hc2]; exact s4

/-- C2: for every window sequence and any (positive) anchor stride and word
limit, the member-index lists of the chunks emitted by the anchor chunker are
pairwise disjoint — no window is a member of more than one chunk — while the
union may be a strict subset of the full index range: concretely, with one
window of positive word count and word limit 0, the chunker emits no chunk
at all, so window 0 belongs to no chunk. -/
theorem semantic_cluster_chunking_disjoint :
    (∀ (comb : List String) (sim : ℕ → ℕ → ℚ) (stride chunk_limit : ℕ)
        (out : List (List ℕ)),
      semantic_cluster_chunking comb sim stride chunk_limit = some out →
        pairwiseDisjoint out) ∧
    (semantic_cluster_chunking ["a"] simId 5 0 = some [] ∧
      (0 : ℕ) < List.length ["a"]) := by
  constructor
  · intro comb sim stride chunk_limit out hout
    unfold semantic_cluster_chunking at hout
    by_cases hs : stride = 0
    · rw [if_pos hs] at hout
      exact absurd hout (Option.noConfusion)
    · rw [if_neg hs] at hout
      have h := (cluster_foldl_inv comb sim chunk_limit
        (anchorIndices comb.length stride) ([], ∅) (by simp)
        (by simp [pairwiseDisjoint]) (by simp)).2.1
      rw [Option.some_inj.1 hout] at h
      exact h
  · exact ⟨by decide, by decide⟩

/-! ### The word-count budget: anchor chunks bounded, heavy windows isolated -/

theorem seqStateAt_chunks_mono (comb : List String) (sim : ℕ → ℕ → ℚ)
    (threshold : ℚ) (chunk_limit : ℕ) (k : ℕ) (c : List ℕ)
    (hc : c ∈ (seqStateAt comb sim threshold chunk_limit k).chunks) :
    ∀ d, c ∈ (seqStateAt comb sim threshold chunk_limit (k + d)).chunks := by
  intro d
  induction d with
  | zero => exact hc
  | succ d ih =>
    have : k + (d + 1) = (k + d) + 1 := by omega
    rw [this, seqStateAt_succ]
    unfold seqStep
    split
    · exact ih
    · exact List.mem_append_left _ ih

theorem seqStateAt_heavy (comb : List String) (sim : ℕ → ℕ → ℚ)
    (threshold : ℚ) (chunk_limit : ℕ) (j : ℕ)
    (hw : chunk_limit < winWC comb j) :
    (seqStateAt comb sim threshold chunk_limit j).current = [j] ∧
      (seqStateAt comb sim threshold chunk_limit j).currentLen = winWC comb j := by
  rcases j with _ | i
  · exact ⟨rfl, rfl⟩
  · rw [seqStateAt_succ]
    unfold seqStep
    rw [if_neg (by
      intro hand
      have := hand.2
      omega)]
    exact ⟨rfl, rfl⟩

/-- C10: every chunk emitted by the anchor chunker has accumulated word
count at most the word limit, so a window whose own word count exceeds the
limit is a member of no anchor chunk (it is silently dropped); the
sequential chunker, in contrast, still emits such a window, as a chunk
containing exactly that window. -/
theorem anchor_chunk_budget :
    (∀ (comb : List String) (sim : ℕ → ℕ → ℚ) (stride chunk_limit : ℕ)
        (out : List (List ℕ)),
      semantic_cluster_chunking comb sim stride chunk_limit = some out →
        ∀ c ∈ out, (c.map (winWC comb)).sum ≤ chunk_limit ∧
          ∀ x ∈ c, winWC comb x ≤ chunk_limit) ∧
    (∀ (comb : List String) (sim : ℕ → ℕ → ℚ) (threshold : ℚ)
        (chunk_limit j : ℕ), j < comb.length → chunk_limit < winWC comb j →
      ∃ out, semantic_chunking comb sim threshold chunk_limit = some out ∧
        [j] ∈ out) := by
  constructor
  · intro comb sim stride chunk_limit out hout c hc
    unfold semantic_cluster_chunking at hout
    by_cases hs : stride = 0
    · rw [if_pos hs] at hout
      exact absurd hout (Option.noConfusion)
    · rw [if_neg hs] at hout
      have h := (cluster_foldl_inv comb sim chunk_limit
        (anchorIndices comb.length stride) ([], ∅) (by simp)
        (by simp [pairwiseDisjoint]) (by simp)).2.2
      rw [Option.some_inj.1 hout] at h
      have hsum := h c hc
      refine ⟨hsum, ?_⟩
      intro x hx
      refine le_trans ?_ hsum
      exact List.single_le_sum (fun y _ => Nat.zero_le y) _
        (List.mem_map_of_mem (winWC comb) hx)
  · intro comb sim threshold chunk_limit j hj hw
    have hne : comb ≠ [] := by
      intro h0
      rw [h0] at hj
      simp at hj
    refine ⟨_, semantic_chunking_eq comb sim threshold chunk_limit hne, ?_⟩
    obtain ⟨hcur, hlen⟩ := seqStateAt_heavy comb sim threshold chunk_limit j hw
    by_cases hlast : j = comb.length - 1
    · rw [← hlast, ← hcur]
      exact List.mem_append_right _ (List.mem_singleton_self _)
    · have hjlt : j + 1 ≤ comb.length - 1 := by omega
      have hstep : [j] ∈ (seqStateAt comb sim threshold chunk_limit (j + 1)).chunks := by
        rw [seqStateAt_succ]
        unfold seqStep
        rw [if_neg (by
          intro hand
          have := hand.2
          omega)]
        rw [hcur]
        exact List.mem_append_right _ (List.mem_singleton_self _)
      have := seqStateAt_chunks_mono comb sim threshold chunk_limit (j + 1) [j]
        hstep (comb.length - 1 - (j + 1))
      rw [show j + 1 + (comb.length - 1 - (j + 1)) = comb.length - 1 by omega] at this
      exact List.mem_append_left _ this

/-! ### Anchor self-membership -/

/-- C9 counterexample: embeddings `e0 = (1,0)`, `e1 = e2 = (0,1)` (`simTie`
is their exact cosine matrix), three one-word windows, stride 2, word limit
1.  Anchors are 0 and 2.  Anchor 0 claims window 0.  Anchor 2 is not in the
used set, its self-similarity is 1, yet the stable sort ranks the tied
window 1 (same similarity 1, smaller index) before anchor 2 itself, so the
first window accepted into anchor 2's chunk is window 1, not window 2 — the
output is `[[0], [1]]` and window 2 ends up in no chunk at all. -/
theorem anchor_self_first_counterexample :
    semantic_cluster_chunking ["a", "b", "c"] simTie 2 1 = some [[0], [1]] ∧
    (anchorScan ["a", "b", "c"] 1 (rankedFor ["a", "b", "c"] (simTie 2))
      {0} [] 0).1.head? = some 1 ∧
    (2 : ℕ) ∉ ({0} : Finset ℕ) ∧ simTie 2 2 = 1 := by
  refine ⟨by decide, by decide, by decide, by decide⟩

/-- C9 amended: anchor `a` always appears in its own ranked candidate list,
with its cosine self-similarity 1.0; and the first window accepted into
anchor `a`'s chunk is window `a` itself provided that `a` is not already
used, that `a`'s own word count fits the word limit, and that no window of
smaller index ties with similarity 1.0 (the stable sort would rank such a
window before `a`; similarity values are bounded by 1, as exact cosine
values are). -/
theorem anchor_self_first_amended (comb : List String) (sim : ℕ → ℕ → ℚ)
    (chunk_limit : ℕ) (a : ℕ) (used : Finset ℕ)
    (ha : a < comb.length) (h1 : sim a a = 1)
    (hle : ∀ j < comb.length, sim a j ≤ 1) (hlt : ∀ j < a, sim a j < 1)
    (hwc : winWC comb a ≤ chunk_limit) (hu : a ∉ used) :
    (a, (1 : ℚ)) ∈ rankedFor comb (sim a) ∧
    (anchorScan comb chunk_limit (rankedFor comb (sim a)) used [] 0).1.head? =
      some a := by
  have hmem : (a, (1 : ℚ)) ∈ rankedFor comb (sim a) := by
    have hm : (a, sim a a) ∈ (List.range comb.length).map
        (fun j => (j, sim a j)) := List.mem_map_of_mem _ (List.mem_range.2 ha)
    have h2 := (sortDesc_perm _).mem_iff.2 hm
    rw [h1] at h2
    exact h2
  refine ⟨hmem, ?_⟩
  rcases hr : rankedFor comb (sim a) with _ | ⟨hd, tl⟩
  · rw [hr] at hmem
    exact absurd hmem (List.not_mem_nil _)
  · have hhd : hd = (a, 1) := by
      rw [hr] at hmem
      rcases List.mem_cons.1 hmem with h | h
      · exact h.symm
      · have hpw := rankedFor_pairwise comb (sim a)
        rw [hr, List.pairwise_cons] at hpw
        have hrel := hpw.1 _ h
        have hsnd := rankedFor_snd comb (sim a) hd
          (by rw [hr]; exact List.mem_cons_self _ _)
        have hbound : hd.2 ≤ 1 := by
          rw [hsnd.1]
          exact hle hd.1 hsnd.2
        rcases hrel with hgt | ⟨heq, hidx⟩
        · simp only at hgt
          exact absurd (lt_of_lt_of_le hgt hbound) (lt_irrefl 1)
        · simp only at heq hidx
          have : sim a hd.1 < 1 := hlt hd.1 hidx
          rw [← hsnd.1, heq] at this
          exact absurd this (lt_irrefl 1)
    rw [hhd]
    by_cases hstop : chunk_limit ≤ winWC comb a
    · have hs : anchorScan comb chunk_limit ((a, 1) :: tl) used [] 0 =
          ([a], insert a used) := by
        simp [anchorScan, hu, hwc, hstop]
      rw [hs]
      rfl
    · obtain ⟨t, ht⟩ := anchorScan_chunk_prefix comb chunk_limit tl
        (insert a used) [a] (winWC comb a)
      have hs : anchorScan comb chunk_limit ((a, 1) :: tl) used [] 0 =
          anchorScan comb chunk_limit tl (insert a used) [a] (winWC comb a) := by
        simp [anchorScan, hu, hwc, hstop]
      rw [hs, ht]
      rfl

/-- C9 witness: the amended statement at a concrete input (two orthogonal
unit embeddings, anchor 0 with nothing used). -/
theorem anchor_self_first_amended_witness :
    simId 0 0 = 1 ∧
      (anchorScan ["a", "b"] 5 (rankedFor ["a", "b"] (simId 0)) ∅ [] 0).1.head? =
        some 0 :=
  ⟨rfl,
    (anchor_self_first_amended ["a", "b"] simId 5 0 ∅ (by decide) rfl
      (by decide) (by decide) (by decide) (by decide)).2⟩

/-! ### The window combiner -/

theorem map_getD_range (l : List String) :
    (List.range l.length).map (fun i => l.getD i "") = l := by
  apply List.ext_getElem
  · simp
  · intro n h1 h2
    simp only [List.getElem_map, List.getElem_range]
    rw [List.getD_eq_getElem l "" h2]

/-- C5: for every buffer size and sentence sequence, `func` returns one
window per sentence; window `i` is the separator-free concatenation of the
sentence texts at positions `[max 0 (i - bufferSize), i]` followed by those
at positions `(i, min (len - 1) (i + bufferSize)]` (the spec-side
`windowSpec`); buffer size 0 returns the sentence texts unchanged; and the
sentences `"A."`, `"B."`, `"C."` with buffer size 1 give the windows
`"A.B."`, `"A.B.C."`, `"B.C."`. -/
theorem func_window_contract (sentences : List String) (buffer_size : ℕ) :
    (func sentences buffer_size).length = sentences.length ∧
    func sentences buffer_size =
      (List.range sentences.length).map (windowSpec sentences buffer_size) ∧
    func sentences 0 = sentences ∧
    func ["A.", "B.", "C."] 1 = ["A.B.", "A.B.C.", "B.C."] := by
  refine ⟨by simp [func], ?_, ?_, by decide⟩
  · unfold func windowSpec
    refine List.map_congr_left ?_
    intro i hi
    rw [List.mem_range] at hi
    have e1 : i - min i buffer_size = max 0 (i - buffer_size) := by omega
    have e2 : min sentences.length (buffer_size + 1 + i) - (i + 1) =
        (min (sentences.length - 1) (i + buffer_size) + 1) - (i + 1) := by omega
    rw [e1, e2]
  · unfold func
    have hbody : ∀ i ∈ List.range sentences.length,
        (String.join ((List.range' (i - min i 0)
            ((i + 1) - (i - min i 0))).map fun o1 => sentences.getD o1 "") ++
          String.join ((List.range' (i + 1)
            (min sentences.length (0 + 1 + i) - (i + 1))).map
              fun o2 => sentences.getD o2 "")) = sentences.getD i "" := by
      intro i hi
      rw [List.mem_range] at hi
      have e1 : i - min i 0 = i := by omega
      have e2 : (i + 1) - i = 1 := by omega
      have e3 : min sentences.length (0 + 1 + i) - (i + 1) = 0 := by omega
      rw [e1, e2, e3]
      simp [String.join]
    rw [List.map_congr_left hbody, map_getD_range]
